import Mathlib

/-!
Verification of the partition-based time-series clustering engine
(k-means / k-medoids over elastic distances, as used from
`examples/partition_based_clustering.ipynb`).

The repository slice contains only the example notebook; the clustering
implementation itself (`sktime.clustering`) is not part of the sources.
All definitions below are therefore modelled from the specification's
description of the data model, the distance module, the initializers,
the centroid updates and the Lloyd's-loop controller.

Numeric observations are modelled as rationals (`ℚ`): the algorithms are
purely order/field-theoretic, so every claim about argmin selection,
dynamic programming, monotonicity and termination is faithfully captured;
square roots are avoided by working with squared Euclidean distance,
which has the same argmin and is the "natural scale" the spec names for
inertia.
-/

namespace Clustering

/-- Modelled from the spec: a `TimeSeries` is an ordered sequence of numeric
observations (univariate case). -/
abbrev Series := List ℚ

/-- Modelled from the spec: a `Dataset` is an ordered collection of series. -/
abbrev Dataset := List Series

/-! ### Argmin / argmax over a list of distances, ties broken by lowest index -/

/-- Index of the minimum of a list of distances; ties broken by choosing the
lowest index (the head wins when its value is `≤` the minimum of the rest). -/
def minIdx : List ℚ → ℕ
  | [] => 0
  | [_] => 0
  | d :: e :: rest =>
    if d ≤ (e :: rest).getD (minIdx (e :: rest)) 0 then 0
    else minIdx (e :: rest) + 1

/-- Index of the maximum of a list of distances; ties broken by choosing the
lowest index. -/
def maxIdx : List ℚ → ℕ
  | [] => 0
  | [_] => 0
  | d :: e :: rest =>
    if (e :: rest).getD (maxIdx (e :: rest)) 0 ≤ d then 0
    else maxIdx (e :: rest) + 1

/-! ### Distance metric module -/

/-- Modelled from the spec: Euclidean local comparison — sum of squared
pointwise differences.  The spec's Euclidean distance is the square root of
this value; the square root is omitted so values stay rational.  Argmin
assignment is unaffected (squaring is monotone on nonnegative reals), and
this is exactly the "squared distances" natural scale the spec names for
inertia. -/
def sqDist (a b : Series) : ℚ :=
  (List.zipWith (fun x y => (x - y) ^ 2) a b).sum

/-- Modelled from the spec: squared-difference local cost used by the DTW
dynamic program. -/
def localSq (x y : ℚ) : ℚ := (x - y) ^ 2

/-- Modelled from the spec: cell `(i, j)` of the `(len a + 1) × (len b + 1)`
DTW cost matrix.  `cell (0,0) = 0`, every other boundary cell is infinity
(`⊤`), and an interior cell is the local cost of the pair it covers plus the
minimum of the three predecessor cells. -/
def dtwCell (c : ℚ → ℚ → ℚ) (a b : List ℚ) : ℕ → ℕ → WithTop ℚ
  | 0, 0 => 0
  | _ + 1, 0 => ⊤
  | 0, _ + 1 => ⊤
  | i + 1, j + 1 =>
    (c (a.getD i 0) (b.getD j 0) : WithTop ℚ) +
      min (dtwCell c a b i (j + 1)) (min (dtwCell c a b (i + 1) j) (dtwCell c a b i j))
  termination_by i j => i + j

/-- Modelled from the spec: the DTW-family distance is the bottom-right cell
of the dynamic-programming cost matrix. -/
def dtwDistance (c : ℚ → ℚ → ℚ) (a b : List ℚ) : WithTop ℚ :=
  dtwCell c a b a.length b.length

/-- Modelled from the spec: the configured `dtw` metric as a rational-valued
distance function usable by the controller — the dynamic program's result
with the squared-difference local cost; the infinity value (reachable only
when a series is empty) collapses to `0`. -/
def dtwQ (a b : Series) : ℚ := (dtwDistance localSq a b).untop' 0

/-- Reference (non-matrix) formulation of the same dynamic program: direct
structural recursion on the two lists, aligning their first elements and
recursing on the three possible tails.  Proved below to agree with the
matrix formulation. -/
def dtwF (c : ℚ → ℚ → ℚ) : List ℚ → List ℚ → WithTop ℚ
  | [], [] => 0
  | [], _ :: _ => ⊤
  | _ :: _, [] => ⊤
  | x :: xs, y :: ys =>
    (c x y : WithTop ℚ) +
      min (dtwF c xs (y :: ys)) (min (dtwF c (x :: xs) ys) (dtwF c xs ys))
  termination_by a b => a.length + b.length

/-! ### Alignment-path recovery (backtracking) and DBA -/

/-- Modelled from the spec: single backtracking step from an interior matrix
cell, following whichever predecessor achieved the minimum, with the fixed
deterministic tie-break diagonal > up > left. -/
def btStep (a b : List ℚ) : ℕ × ℕ → ℕ × ℕ
  | (0, 0) => (0, 0)
  | (i + 1, 0) => (i, 0)
  | (0, j + 1) => (0, j)
  | (i + 1, j + 1) =>
    if dtwCell localSq a b i j ≤ dtwCell localSq a b i (j + 1) ∧
        dtwCell localSq a b i j ≤ dtwCell localSq a b (i + 1) j then (i, j)
    else if dtwCell localSq a b i (j + 1) ≤ dtwCell localSq a b (i + 1) j then (i, j + 1)
    else (i + 1, j)

/-- Backtracking path from a given cell down to `(0, 0)` (exclusive), with
explicit fuel (each step strictly decreases `i + j`, so `i + j` fuel
suffices). -/
def btPathAux (a b : List ℚ) : ℕ → ℕ × ℕ → List (ℕ × ℕ)
  | 0, _ => []
  | _ + 1, (0, 0) => []
  | f + 1, (i + 1, j) => (i + 1, j) :: btPathAux a b f (btStep a b (i + 1, j))
  | f + 1, (0, j + 1) => (0, j + 1) :: btPathAux a b f (btStep a b (0, j + 1))

/-- Modelled from the spec: the DTW alignment path of `a` against `b` — the
cells `(i, j)` on the minimum-cost route recovered by backtracking from
`(len a, len b)` to `(0, 0)`; cell `(i, j)` aligns `a[i-1]` with `b[j-1]`. -/
def alignPath (a b : List ℚ) : List (ℕ × ℕ) :=
  btPathAux a b (a.length + b.length) (a.length, b.length)

/-- The descending diagonal `[(i, i), (i-1, i-1), ..., (1, 1)]` of matrix
cells; the expected self-alignment path. -/
def diag : ℕ → List (ℕ × ℕ)
  | 0 => []
  | i + 1 => (i + 1, i + 1) :: diag i

/-- Modelled from the spec: one DBA refinement round.  For each reference
index `t`, collect every member value mapped to it by that member's
alignment path against the reference, and replace the reference value at `t`
by the arithmetic mean of the collected multiset. -/
def refineOnce (ms : List Series) (ref : Series) : Series :=
  (List.range ref.length).map (fun t =>
    let vals := ms.flatMap (fun m =>
      ((alignPath ref m).filter (fun p => p.1 = t + 1)).map (fun p => m.getD (p.2 - 1) 0))
    vals.sum / (vals.length : ℚ))

/-- Modelled from the spec: DBA — iterate the refinement round a configured
number of times starting from the current center. -/
def dba : ℕ → List Series → Series → Series
  | 0, _, ref => ref
  | r + 1, ms, ref => dba r ms (refineOnce ms ref)

/-! ### Assignment and inertia -/

/-- Modelled from the spec: assignment step for one series — evaluate the
distance to each of the `k` centers and take the label of the minimum,
tie-break lowest cluster index. -/
def assignLabel (dist : Series → Series → ℚ) (centers : List Series) (x : Series) : ℕ :=
  minIdx (centers.map (fun c => dist x c))

/-- Assignment step for the whole dataset. -/
def assignAll (dist : Series → Series → ℚ) (centers : List Series) (data : Dataset) :
    List ℕ :=
  data.map (assignLabel dist centers)

/-- Modelled from the spec: inertia — the sum over the dataset of the
distance from each series to its assigned center. -/
def inertia (dist : Series → Series → ℚ) (data : Dataset) (centers : List Series)
    (labels : List ℕ) : ℚ :=
  ((List.range data.length).map
    (fun i => dist (data.getD i []) (centers.getD (labels.getD i 0) []))).sum

/-! ### Centroid update module -/

/-- Modelled from the spec: index of the dataset series currently farthest
from its own assigned center (ties broken by lowest series index); used by
the empty-cluster policy. -/
def farthestIdx (dist : Series → Series → ℚ) (data : Dataset) (centers : List Series)
    (labels : List ℕ) : ℕ :=
  maxIdx ((List.range data.length).map
    (fun i => dist (data.getD i []) (centers.getD (labels.getD i 0) [])))

/-- Indices of the members of cluster `j` under a labeling of a dataset of
`n` series. -/
def memberIdxs (labels : List ℕ) (n j : ℕ) : List ℕ :=
  (List.range n).filter (fun i => labels.getD i 0 = j)

/-- Elementwise arithmetic mean, at coordinate `t`, of the dataset series
whose indices lie in `mem`. -/
def meanAt (data : Dataset) (mem : List ℕ) (t : ℕ) : ℚ :=
  (mem.map (fun i => (data.getD i []).getD t 0)).sum / (mem.length : ℚ)

/-- Modelled from the spec: mean-averaging centroid update with the
empty-cluster policy.  Cluster `j`'s new center is the elementwise mean of
its members; a cluster with zero members instead receives the dataset series
farthest from its own assigned center. -/
def updateMeans (dist : Series → Series → ℚ) (len k : ℕ) (data : Dataset)
    (centers : List Series) (labels : List ℕ) : List Series :=
  (List.range k).map (fun j =>
    let mem := memberIdxs labels data.length j
    if mem = [] then data.getD (farthestIdx dist data centers labels) []
    else (List.range len).map (meanAt data mem))

/-- Modelled from the spec: index (within the cluster) of the medoid — the
member minimizing the sum of configured-metric distances to the members,
ties broken by lowest index. -/
def medoidIdx (dist : Series → Series → ℚ) (cl : List Series) : ℕ :=
  minIdx (cl.map (fun s => (cl.map (fun m => dist s m)).sum))

/-- Modelled from the spec: medoid centroid update — returns the selected
cluster member itself. -/
def medoid (dist : Series → Series → ℚ) (cl : List Series) : Series :=
  cl.getD (medoidIdx dist cl) []

/-! ### Initialization module -/

/-- Inverse-CDF sampling of an index from a weight list: the drawn index is
the one whose half-open cumulative-weight interval contains `u`, so a draw
with `u` ranging over `[0, total weight)` picks index `i` with probability
proportional to `w i`. -/
def pickIdx : List ℚ → ℚ → ℕ
  | [], _ => 0
  | w :: rest, u => if u < w then 0 else pickIdx rest (u - w) + 1

/-- Value at the argmin position (the minimum of a nonempty list, `0` on the
empty list). -/
def minVal (ds : List ℚ) : ℚ := ds.getD (minIdx ds) 0

/-- Modelled from the spec: a series' squared distance to its nearest
already-chosen center. -/
def nearestSq (dist : Series → Series → ℚ) (chosen : List Series) (x : Series) : ℚ :=
  minVal (chosen.map (fun c => dist x c ^ 2))

/-- Modelled from the spec: the first k-means++ center is drawn uniformly —
every dataset index carries equal weight `1`. -/
def kmeansPPFirst (data : Dataset) (u : ℚ) : ℕ :=
  pickIdx (data.map (fun _ => 1)) u

/-- Modelled from the spec: a subsequent k-means++ center is drawn with
probability proportional to the squared distance to the nearest
already-chosen center. -/
def kmeansPPNext (dist : Series → Series → ℚ) (data : Dataset) (chosen : List Series)
    (u : ℚ) : ℕ :=
  pickIdx (data.map (nearestSq dist chosen)) u

/-- Modelled from the spec: full k-means++ initialization over a stream of
random draws — first center uniform, then one weighted draw per remaining
center until `us.length + 1` centers are chosen. -/
def kmeansPP (dist : Series → Series → ℚ) (data : Dataset) (u0 : ℚ) (us : List ℚ) :
    List Series :=
  us.foldl (fun chosen u => chosen ++ [data.getD (kmeansPPNext dist data chosen u) []])
    [data.getD (kmeansPPFirst data u0) []]

/-- Modelled from the spec: the error taxonomy. -/
inductive ClusterError where
  | InsufficientData
  | InvalidParameter
  | DimensionMismatch
deriving DecidableEq

/-- Sampling without replacement: draw `k` elements from a pool, each draw
taken at position `r % pool.length` for the next random value `r` and then
erased from the pool. -/
def drawIdxs : ℕ → List ℕ → List ℕ → List ℕ
  | 0, _, _ => []
  | k + 1, rs, pool =>
    let x := pool.getD (rs.headD 0 % pool.length) 0
    x :: drawIdxs k rs.tail (pool.erase x)

/-- The dataset indices chosen by Forgy initialization. -/
def forgyIdxs (data : Dataset) (k : ℕ) (rs : List ℕ) : List ℕ :=
  drawIdxs k rs (List.range data.length)

/-- Modelled from the spec: Forgy initialization — sample `k` distinct
series uniformly without replacement directly as centers; fails with
`InsufficientData` when the dataset has fewer than `k` series. -/
def forgy (data : Dataset) (k : ℕ) (rs : List ℕ) : Except ClusterError (List Series) :=
  if data.length < k then .error .InsufficientData
  else .ok ((forgyIdxs data k rs).map (fun i => data.getD i []))

/-! ### Lloyd's-loop controller and Model -/

/-- Modelled from the spec: the fitted Model — centers, labels, inertia,
iteration count, and the did-converge flag. -/
structure Model where
  centers : List Series
  labels : List ℕ
  inertia : ℚ
  n_iterations : ℕ
  converged : Bool
deriving DecidableEq

/-- Modelled from the spec: the Lloyd's loop.  Each round recomputes centers
from the current assignment and reassigns every series; it stops as
converged when no label changed in the last assignment step, or as
iteration-limit-reached (with the last computed centers and labels, and the
did-not-converge flag) when the fuel `max_iter` is exhausted. -/
def lloydLoop (dist : Series → Series → ℚ)
    (upd : Dataset → List Series → List ℕ → List Series) (data : Dataset) :
    ℕ → ℕ → List Series → List ℕ → Model
  | 0, iters, cs, ls => ⟨cs, ls, inertia dist data cs ls, iters, false⟩
  | fuel + 1, iters, cs, ls =>
    let cs' := upd data cs ls
    let ls' := assignAll dist cs' data
    if ls' = ls then ⟨cs', ls', inertia dist data cs' ls', iters + 1, true⟩
    else lloydLoop dist upd data fuel (iters + 1) cs' ls'

/-- Modelled from the spec: `fit` for mean-averaging k-means — Forgy
initialization (so validation happens before the first iteration), an
initial assignment, then the Lloyd's loop with at most `maxIter` rounds. -/
def fitKMeans (dist : Series → Series → ℚ) (len k maxIter : ℕ) (data : Dataset)
    (rs : List ℕ) : Except ClusterError Model :=
  (forgy data k rs).map (fun cs0 =>
    lloydLoop dist (updateMeans dist len k) data maxIter 0 cs0 (assignAll dist cs0 data))

/-- Modelled from the spec: the estimator object — constructor-supplied
configuration plus the (initially absent) fitted model. -/
structure TimeSeriesKMeans where
  n_clusters : ℕ
  max_iter : ℕ
  series_len : ℕ
  model : Option Model
deriving DecidableEq

/-- Modelled from the spec: fitting an estimator runs `fit` with the
constructor-supplied configuration and stores the resulting model. -/
def fitEstimator (dist : Series → Series → ℚ) (est : TimeSeriesKMeans) (data : Dataset)
    (rs : List ℕ) : Except ClusterError TimeSeriesKMeans :=
  (fitKMeans dist est.series_len est.n_clusters est.max_iter data rs).map
    (fun m => { est with model := some m })

/-! ### Lemmas -/

lemma minIdx_cons_cons (d e : ℚ) (rest : List ℚ) :
    minIdx (d :: e :: rest) =
      if d ≤ (e :: rest).getD (minIdx (e :: rest)) 0 then 0
      else minIdx (e :: rest) + 1 := rfl

lemma maxIdx_cons_cons (d e : ℚ) (rest : List ℚ) :
    maxIdx (d :: e :: rest) =
      if (e :: rest).getD (maxIdx (e :: rest)) 0 ≤ d then 0
      else maxIdx (e :: rest) + 1 := rfl

lemma minIdx_lt_length : ∀ (ds : List ℚ), ds ≠ [] → minIdx ds < ds.length
  | [], h => absurd rfl h
  | [_], _ => by simp [minIdx]
  | d :: e :: rest, _ => by
    have ih := minIdx_lt_length (e :: rest) (by simp)
    rw [minIdx_cons_cons]
    simp only [List.length_cons] at ih ⊢
    by_cases hle : d ≤ (e :: rest).getD (minIdx (e :: rest)) 0
    · rw [if_pos hle]; omega
    · rw [if_neg hle]; omega

lemma minIdx_le : ∀ (ds : List ℚ) (j : ℕ), j < ds.length →
    ds.getD (minIdx ds) 0 ≤ ds.getD j 0
  | [], j, hj => by simp at hj
  | [d], j, hj => by
    have hj0 : j = 0 := by
      simp only [List.length_singleton] at hj
      omega
    subst hj0
    simp [minIdx]
  | d :: e :: rest, j, hj => by
    have ih := fun j hj => minIdx_le (e :: rest) j hj
    rw [minIdx_cons_cons]
    by_cases hle : d ≤ (e :: rest).getD (minIdx (e :: rest)) 0
    · rw [if_pos hle]
      cases j with
      | zero => simp
      | succ j' =>
        simp only [List.getD_cons_zero, List.getD_cons_succ]
        exact le_trans hle (ih j' (by simpa using hj))
    · rw [if_neg hle]
      cases j with
      | zero =>
        simp only [List.getD_cons_zero, List.getD_cons_succ]
        exact le_of_lt (lt_of_not_le hle)
      | succ j' =>
        simp only [List.getD_cons_succ]
        exact ih j' (by simpa using hj)

lemma minIdx_tiebreak : ∀ (ds : List ℚ) (j : ℕ), j < minIdx ds →
    ds.getD (minIdx ds) 0 < ds.getD j 0
  | [], j, hj => by simp [minIdx] at hj
  | [d], j, hj => by simp [minIdx] at hj
  | d :: e :: rest, j, hj => by
    have ih := fun j hj => minIdx_tiebreak (e :: rest) j hj
    rw [minIdx_cons_cons] at hj ⊢
    by_cases hle : d ≤ (e :: rest).getD (minIdx (e :: rest)) 0
    · rw [if_pos hle] at hj
      omega
    · rw [if_neg hle] at hj ⊢
      cases j with
      | zero =>
        simp only [List.getD_cons_zero, List.getD_cons_succ]
        exact lt_of_not_le hle
      | succ j' =>
        simp only [List.getD_cons_succ]
        exact ih j' (by omega)

lemma maxIdx_lt_length : ∀ (ds : List ℚ), ds ≠ [] → maxIdx ds < ds.length
  | [], h => absurd rfl h
  | [_], _ => by simp [maxIdx]
  | d :: e :: rest, _ => by
    have ih := maxIdx_lt_length (e :: rest) (by simp)
    rw [maxIdx_cons_cons]
    simp only [List.length_cons] at ih ⊢
    by_cases hle : (e :: rest).getD (maxIdx (e :: rest)) 0 ≤ d
    · rw [if_pos hle]; omega
    · rw [if_neg hle]; omega

lemma le_maxIdx : ∀ (ds : List ℚ) (j : ℕ), j < ds.length →
    ds.getD j 0 ≤ ds.getD (maxIdx ds) 0
  | [], j, hj => by simp at hj
  | [d], j, hj => by
    have hj0 : j = 0 := by
      simp only [List.length_singleton] at hj
      omega
    subst hj0
    simp [maxIdx]
  | d :: e :: rest, j, hj => by
    have ih := fun j hj => le_maxIdx (e :: rest) j hj
    rw [maxIdx_cons_cons]
    by_cases hle : (e :: rest).getD (maxIdx (e :: rest)) 0 ≤ d
    · rw [if_pos hle]
      cases j with
      | zero => simp
      | succ j' =>
        simp only [List.getD_cons_zero, List.getD_cons_succ]
        exact le_trans (ih j' (by simpa using hj)) hle
    · rw [if_neg hle]
      cases j with
      | zero =>
        simp only [List.getD_cons_zero, List.getD_cons_succ]
        exact le_of_lt (lt_of_not_le hle)
      | succ j' =>
        simp only [List.getD_cons_succ]
        exact ih j' (by simpa using hj)

lemma maxIdx_tiebreak : ∀ (ds : List ℚ) (j : ℕ), j < maxIdx ds →
    ds.getD j 0 < ds.getD (maxIdx ds) 0
  | [], j, hj => by simp [maxIdx] at hj
  | [d], j, hj => by simp [maxIdx] at hj
  | d :: e :: rest, j, hj => by
    have ih := fun j hj => maxIdx_tiebreak (e :: rest) j hj
    rw [maxIdx_cons_cons] at hj ⊢
    by_cases hle : (e :: rest).getD (maxIdx (e :: rest)) 0 ≤ d
    · rw [if_pos hle] at hj
      omega
    · rw [if_neg hle] at hj ⊢
      cases j with
      | zero =>
        simp only [List.getD_cons_zero, List.getD_cons_succ]
        exact lt_of_not_le hle
      | succ j' =>
        simp only [List.getD_cons_succ]
        exact ih j' (by omega)

lemma getD_map_of_lt {α β : Type} (f : α → β) (l : List α) (j : ℕ) (dα : α) (dβ : β)
    (h : j < l.length) : (l.map f).getD j dβ = f (l.getD j dα) := by
  rw [List.getD_eq_getElem _ _ (by simpa using h), List.getD_eq_getElem _ _ h,
    List.getElem_map]

lemma getD_mem {α : Type} (l : List α) (i : ℕ) (d : α) (h : i < l.length) :
    l.getD i d ∈ l := by
  rw [List.getD_eq_getElem _ _ h]
  exact List.getElem_mem h

/-! ### Assignment-step lemmas -/

lemma assignLabel_lt (dist : Series → Series → ℚ) (centers : List Series) (x : Series)
    (h : centers ≠ []) : assignLabel dist centers x < centers.length := by
  have := minIdx_lt_length (centers.map fun c => dist x c) (by simpa using h)
  simpa [assignLabel] using this

lemma assignLabel_min (dist : Series → Series → ℚ) (centers : List Series) (x : Series)
    (j : ℕ) (hj : j < centers.length) :
    dist x (centers.getD (assignLabel dist centers x) []) ≤ dist x (centers.getD j []) := by
  have hne : centers ≠ [] := by
    intro h
    subst h
    simp at hj
  have hlt : assignLabel dist centers x < centers.length := assignLabel_lt dist centers x hne
  have h1 := minIdx_le (centers.map fun c => dist x c) j (by simpa using hj)
  rw [getD_map_of_lt _ _ _ [] 0 (by simpa [assignLabel] using hlt),
    getD_map_of_lt _ _ _ [] 0 hj] at h1
  exact h1

lemma assignLabel_tiebreak (dist : Series → Series → ℚ) (centers : List Series) (x : Series)
    (j : ℕ) (hj : j < assignLabel dist centers x) :
    dist x (centers.getD (assignLabel dist centers x) []) < dist x (centers.getD j []) := by
  have hne : centers ≠ [] := by
    intro h
    subst h
    simp [assignLabel, minIdx] at hj
  have hlt : assignLabel dist centers x < centers.length := assignLabel_lt dist centers x hne
  have h1 := minIdx_tiebreak (centers.map fun c => dist x c) j (by simpa [assignLabel] using hj)
  rw [getD_map_of_lt _ _ _ [] 0 (by simpa [assignLabel] using hlt),
    getD_map_of_lt _ _ _ [] 0 (lt_trans hj hlt)] at h1
  exact h1

lemma assignAll_length (dist : Series → Series → ℚ) (centers : List Series)
    (data : Dataset) : (assignAll dist centers data).length = data.length := by
  simp [assignAll]

lemma assignAll_getD (dist : Series → Series → ℚ) (centers : List Series) (data : Dataset)
    (i : ℕ) (hi : i < data.length) :
    (assignAll dist centers data).getD i 0 = assignLabel dist centers (data.getD i []) := by
  exact getD_map_of_lt _ data i [] 0 hi

/-! ### Lloyd's-loop invariants -/

lemma lloydLoop_labels (dist : Series → Series → ℚ)
    (upd : Dataset → List Series → List ℕ → List Series) (data : Dataset) :
    ∀ (fuel iters : ℕ) (cs : List Series) (ls : List ℕ), ls = assignAll dist cs data →
      (lloydLoop dist upd data fuel iters cs ls).labels =
        assignAll dist (lloydLoop dist upd data fuel iters cs ls).centers data := by
  intro fuel
  induction fuel with
  | zero =>
    intro iters cs ls h
    simpa [lloydLoop] using h
  | succ fuel ih =>
    intro iters cs ls h
    simp only [lloydLoop]
    split
    · rfl
    · exact ih (iters + 1) _ _ rfl

lemma lloydLoop_centers_length (dist : Series → Series → ℚ)
    (upd : Dataset → List Series → List ℕ → List Series) (data : Dataset) (k : ℕ)
    (hupd : ∀ cs ls, (upd data cs ls).length = k) :
    ∀ (fuel iters : ℕ) (cs : List Series) (ls : List ℕ), cs.length = k →
      (lloydLoop dist upd data fuel iters cs ls).centers.length = k := by
  intro fuel
  induction fuel with
  | zero =>
    intro iters cs ls h
    simpa [lloydLoop] using h
  | succ fuel ih =>
    intro iters cs ls h
    simp only [lloydLoop]
    split
    · exact hupd cs ls
    · exact ih (iters + 1) _ _ (hupd cs ls)

lemma lloydLoop_iterations (dist : Series → Series → ℚ)
    (upd : Dataset → List Series → List ℕ → List Series) (data : Dataset) :
    ∀ (fuel iters : ℕ) (cs : List Series) (ls : List ℕ),
      (lloydLoop dist upd data fuel iters cs ls).n_iterations ≤ iters + fuel ∧
      ((lloydLoop dist upd data fuel iters cs ls).converged = false →
        (lloydLoop dist upd data fuel iters cs ls).n_iterations = iters + fuel) := by
  intro fuel
  induction fuel with
  | zero =>
    intro iters cs ls
    simp [lloydLoop]
  | succ fuel ih =>
    intro iters cs ls
    simp only [lloydLoop]
    split
    · constructor
      · simp only []
        omega
      · intro h
        simp at h
    · have := ih (iters + 1) (upd data cs ls) (assignAll dist (upd data cs ls) data)
      constructor
      · exact le_trans this.1 (by omega)
      · intro h
        rw [this.2 h]
        omega

/-! ### Forgy / sampling-without-replacement lemmas -/

lemma drawIdxs_length : ∀ (k : ℕ) (rs pool : List ℕ), k ≤ pool.length →
    (drawIdxs k rs pool).length = k
  | 0, _, _, _ => by simp [drawIdxs]
  | k + 1, rs, pool, hk => by
    have hpos : 0 < pool.length := by omega
    have hmem : pool.getD (rs.headD 0 % pool.length) 0 ∈ pool :=
      getD_mem pool _ 0 (Nat.mod_lt _ hpos)
    have herase : (pool.erase (pool.getD (rs.headD 0 % pool.length) 0)).length =
        pool.length - 1 := List.length_erase_of_mem hmem
    simp only [drawIdxs, List.length_cons]
    rw [drawIdxs_length k rs.tail _ (by omega)]

lemma drawIdxs_subset : ∀ (k : ℕ) (rs pool : List ℕ), k ≤ pool.length →
    ∀ y ∈ drawIdxs k rs pool, y ∈ pool
  | 0, _, _, _, y, hy => by simp [drawIdxs] at hy
  | k + 1, rs, pool, hk, y, hy => by
    have hpos : 0 < pool.length := by omega
    have hmem : pool.getD (rs.headD 0 % pool.length) 0 ∈ pool :=
      getD_mem pool _ 0 (Nat.mod_lt _ hpos)
    have herase : (pool.erase (pool.getD (rs.headD 0 % pool.length) 0)).length =
        pool.length - 1 := List.length_erase_of_mem hmem
    simp only [drawIdxs, List.mem_cons] at hy
    rcases hy with rfl | hy
    · exact hmem
    · exact List.mem_of_mem_erase (drawIdxs_subset k rs.tail _ (by omega) y hy)

lemma drawIdxs_nodup : ∀ (k : ℕ) (rs pool : List ℕ), pool.Nodup → k ≤ pool.length →
    (drawIdxs k rs pool).Nodup
  | 0, _, _, _, _ => by simp [drawIdxs]
  | k + 1, rs, pool, hnd, hk => by
    have hpos : 0 < pool.length := by omega
    have hmem : pool.getD (rs.headD 0 % pool.length) 0 ∈ pool :=
      getD_mem pool _ 0 (Nat.mod_lt _ hpos)
    have herase : (pool.erase (pool.getD (rs.headD 0 % pool.length) 0)).length =
        pool.length - 1 := List.length_erase_of_mem hmem
    simp only [drawIdxs, List.nodup_cons]
    refine ⟨?_, drawIdxs_nodup k rs.tail _ (hnd.erase _) (by omega)⟩
    intro hcontra
    have hsub := drawIdxs_subset k rs.tail _ (by omega) _ hcontra
    rw [hnd.mem_erase_iff] at hsub
    exact hsub.1 rfl

lemma forgy_ok_length (data : Dataset) (k : ℕ) (rs : List ℕ) (cs : List Series)
    (h : forgy data k rs = .ok cs) : cs.length = k := by
  by_cases hlt : data.length < k
  · simp [forgy, hlt] at h
  · simp only [forgy, if_neg hlt, Except.ok.injEq] at h
    subst h
    simp only [List.length_map, forgyIdxs]
    exact drawIdxs_length k rs _ (by simp; omega)

lemma updateMeans_length (dist : Series → Series → ℚ) (len k : ℕ) (data : Dataset)
    (centers : List Series) (labels : List ℕ) :
    (updateMeans dist len k data centers labels).length = k := by
  simp [updateMeans]

instance {ε α : Type} [DecidableEq ε] [DecidableEq α] : DecidableEq (Except ε α) :=
  fun a b =>
  match a, b with
  | .error e, .error f =>
    if h : e = f then isTrue (congrArg Except.error h)
    else isFalse (fun hc => h (Except.error.inj hc))
  | .ok x, .ok y =>
    if h : x = y then isTrue (congrArg Except.ok h)
    else isFalse (fun hc => h (Except.ok.inj hc))
  | .error _, .ok _ => isFalse (fun hc => Except.noConfusion hc)
  | .ok _, .error _ => isFalse (fun hc => Except.noConfusion hc)

/-! ### DTW dynamic-programming lemmas -/

lemma dtwF_nil_left (c : ℚ → ℚ → ℚ) (l : List ℚ) (h : l ≠ []) : dtwF c [] l = ⊤ := by
  cases l with
  | nil => exact absurd rfl h
  | cons x xs => simp [dtwF]

lemma dtwF_nil_right (c : ℚ → ℚ → ℚ) (l : List ℚ) (h : l ≠ []) : dtwF c l [] = ⊤ := by
  cases l with
  | nil => exact absurd rfl h
  | cons x xs => simp [dtwF]

lemma take_succ_reverse (l : List ℚ) (i : ℕ) (h : i < l.length) :
    (l.take (i + 1)).reverse = l.getD i 0 :: (l.take i).reverse := by
  rw [List.take_succ, List.getElem?_eq_getElem h, List.getD_eq_getElem _ _ h]
  simp

lemma take_reverse_ne_nil (l : List ℚ) (i : ℕ) (hi : i + 1 ≤ l.length) :
    (l.take (i + 1)).reverse ≠ ([] : List ℚ) := by
  simp only [ne_eq, List.reverse_eq_nil_iff, List.take_eq_nil_iff, not_or]
  constructor
  · omega
  · intro h
    rw [h] at hi
    simp at hi

lemma dtwCell_eq_dtwF (c : ℚ → ℚ → ℚ) (a b : List ℚ) :
    ∀ (i j : ℕ), i ≤ a.length → j ≤ b.length →
      dtwCell c a b i j = dtwF c ((a.take i).reverse) ((b.take j).reverse)
  | 0, 0, _, _ => by simp [dtwCell, dtwF]
  | i + 1, 0, hi, _ => by
    simp only [dtwCell, List.take_zero, List.reverse_nil]
    rw [dtwF_nil_right c _ (take_reverse_ne_nil a i hi)]
  | 0, j + 1, _, hj => by
    simp only [dtwCell, List.take_zero, List.reverse_nil]
    rw [dtwF_nil_left c _ (take_reverse_ne_nil b j hj)]
  | i + 1, j + 1, hi, hj => by
    have hia : i < a.length := by omega
    have hjb : j < b.length := by omega
    have e1 := dtwCell_eq_dtwF c a b i (j + 1) (by omega) hj
    have e2 := dtwCell_eq_dtwF c a b (i + 1) j hi (by omega)
    have e3 := dtwCell_eq_dtwF c a b i j (by omega) (by omega)
    have ha' := take_succ_reverse a i hia
    have hb' := take_succ_reverse b j hjb
    simp only [dtwCell]
    rw [e1, e2, e3, ha', hb']
    simp only [dtwF]
  termination_by i j => i + j

lemma dtwQ_eq_dtwF (a b : Series) :
    dtwQ a b = (dtwF localSq a.reverse b.reverse).untop' 0 := by
  rw [dtwQ, dtwDistance, dtwCell_eq_dtwF localSq a b a.length b.length le_rfl le_rfl,
    List.take_length, List.take_length]

/-! ### Claim theorems -/

/-- C1: after a successful fit, every series receives exactly one cluster
label (the label list has one entry per series), every label lies in
`[0, n_clusters)`, the label is the index of a center at minimum distance
from the series, and any strictly lower index has strictly greater
distance (ties are broken by choosing the lowest cluster index). -/
theorem claim_C1_assignment (dist : Series → Series → ℚ) (len k maxIter : ℕ)
    (data : Dataset) (rs : List ℕ) (m : Model) (hk : 0 < k)
    (hfit : fitKMeans dist len k maxIter data rs = .ok m) :
    m.labels.length = data.length ∧
    ∀ i, i < data.length →
      m.labels.getD i 0 < k ∧
      (∀ j, j < k →
        dist (data.getD i []) (m.centers.getD (m.labels.getD i 0) []) ≤
          dist (data.getD i []) (m.centers.getD j [])) ∧
      (∀ j, j < m.labels.getD i 0 →
        dist (data.getD i []) (m.centers.getD (m.labels.getD i 0) []) <
          dist (data.getD i []) (m.centers.getD j [])) := by
  rcases hcs : forgy data k rs with e | cs0
  · rw [fitKMeans, hcs] at hfit
    simp [Except.map] at hfit
  · rw [fitKMeans, hcs] at hfit
    simp only [Except.map, Except.ok.injEq] at hfit
    have hlen0 : cs0.length = k := forgy_ok_length data k rs cs0 hcs
    have hclen : m.centers.length = k := by
      rw [← hfit]
      exact lloydLoop_centers_length dist _ data k
        (fun cs ls => updateMeans_length dist len k data cs ls) maxIter 0 cs0 _ hlen0
    have hlab : m.labels = assignAll dist m.centers data := by
      rw [← hfit]
      exact lloydLoop_labels dist _ data maxIter 0 cs0 _ rfl
    have hcne : m.centers ≠ [] := by
      intro h
      rw [h] at hclen
      simp at hclen
      omega
    constructor
    · rw [hlab]
      exact assignAll_length dist m.centers data
    · intro i hi
      have hgetD : m.labels.getD i 0 = assignLabel dist m.centers (data.getD i []) := by
        rw [hlab]
        exact assignAll_getD dist m.centers data i hi
      refine ⟨?_, ?_, ?_⟩
      · rw [hgetD, ← hclen]
        exact assignLabel_lt dist m.centers _ hcne
      · intro j hj
        rw [hgetD]
        exact assignLabel_min dist m.centers _ j (by omega)
      · intro j hj
        rw [hgetD]
        rw [hgetD] at hj
        exact assignLabel_tiebreak dist m.centers _ j hj

/-- C2: for every local-cost function of the DTW family and every pair of
series, the distance defined by the spec's dynamic program over the
`(len a + 1) × (len b + 1)` cost matrix (boundary cells `⊤` except
`cell (0,0) = 0`, interior cell = local cost + min of the three predecessor
cells, result = `cell (len a, len b)`) coincides with the direct recursive
formulation of DTW on the two series. -/
theorem claim_C2_dtw_matrix (c : ℚ → ℚ → ℚ) (a b : List ℚ) :
    dtwDistance c a b = dtwF c a.reverse b.reverse := by
  have h := dtwCell_eq_dtwF c a b a.length b.length le_rfl le_rfl
  simpa [dtwDistance, List.take_length] using h

/-- Witness for C1 at a concrete input: a two-series dataset, one cluster,
Forgy seed `[0]`. -/
theorem claim_C1_assignment_witness :
    (0 : ℕ) < 1 ∧
    fitKMeans sqDist 1 1 1 [[0], [1]] [0] =
      .ok ⟨[[(1 : ℚ) / 2]], [0, 0], 1 / 2, 1, true⟩ ∧
    ([0, 0] : List ℕ).length = ([[0], [1]] : Dataset).length ∧
    ∀ i, i < ([[0], [1]] : Dataset).length →
      ([0, 0] : List ℕ).getD i 0 < 1 ∧
      (∀ j, j < 1 →
        sqDist (([[0], [1]] : Dataset).getD i [])
            (([[(1 : ℚ) / 2]] : List Series).getD (([0, 0] : List ℕ).getD i 0) []) ≤
          sqDist (([[0], [1]] : Dataset).getD i [])
            (([[(1 : ℚ) / 2]] : List Series).getD j [])) ∧
      (∀ j, j < ([0, 0] : List ℕ).getD i 0 →
        sqDist (([[0], [1]] : Dataset).getD i [])
            (([[(1 : ℚ) / 2]] : List Series).getD (([0, 0] : List ℕ).getD i 0) []) <
          sqDist (([[0], [1]] : Dataset).getD i [])
            (([[(1 : ℚ) / 2]] : List Series).getD j [])) := by
  have hfit : fitKMeans sqDist 1 1 1 [[0], [1]] [0] =
      .ok ⟨[[(1 : ℚ) / 2]], [0, 0], 1 / 2, 1, true⟩ := by
    norm_num [fitKMeans, forgy, forgyIdxs, drawIdxs, Except.map, lloydLoop, assignAll,
      assignLabel, minIdx, updateMeans, memberIdxs, meanAt, inertia, sqDist, farthestIdx,
      maxIdx, List.range_succ, List.filter, List.cons_ne_nil]
  exact ⟨Nat.one_pos, hfit,
    claim_C1_assignment sqDist 1 1 1 [[0], [1]] [0]
      ⟨[[(1 : ℚ) / 2]], [0, 0], 1 / 2, 1, true⟩ Nat.one_pos hfit⟩

/-- C7: on every valid input (dataset at least as large as `k`, so
initialization succeeds), `fit` terminates and returns a Model — reaching
the iteration limit is not an error — with `n_iterations ≤ max_iter`, and
whenever the did-converge flag is false the iteration count equals
`max_iter` exactly. -/
theorem claim_C7_max_iter (dist : Series → Series → ℚ) (len k maxIter : ℕ)
    (data : Dataset) (rs : List ℕ) (hk : k ≤ data.length) :
    ∃ m, fitKMeans dist len k maxIter data rs = .ok m ∧
      m.n_iterations ≤ maxIter ∧
      (m.converged = false → m.n_iterations = maxIter) := by
  have hforgy : forgy data k rs =
      .ok ((forgyIdxs data k rs).map (fun i => data.getD i [])) := by
    rw [forgy, if_neg (by omega)]
  have h := lloydLoop_iterations dist (updateMeans dist len k) data maxIter 0
    ((forgyIdxs data k rs).map (fun i => data.getD i []))
    (assignAll dist ((forgyIdxs data k rs).map (fun i => data.getD i [])) data)
  refine ⟨lloydLoop dist (updateMeans dist len k) data maxIter 0
      ((forgyIdxs data k rs).map (fun i => data.getD i []))
      (assignAll dist ((forgyIdxs data k rs).map (fun i => data.getD i [])) data),
    ?_, by simpa using h.1, fun hc => by simpa using h.2 hc⟩
  rw [fitKMeans, hforgy]
  rfl

/-- Witness for C7 at a concrete input. -/
theorem claim_C7_max_iter_witness :
    (1 : ℕ) ≤ ([[0], [1]] : Dataset).length ∧
    ∃ m, fitKMeans sqDist 1 1 1 [[0], [1]] [0] = .ok m ∧
      m.n_iterations ≤ 1 ∧
      (m.converged = false → m.n_iterations = 1) :=
  ⟨by decide, claim_C7_max_iter sqDist 1 1 1 [[0], [1]] [0] (by decide)⟩

/-- C8: `fit` fails, with `InsufficientData`, exactly when the dataset is
smaller than `k` — the failure comes from initialization, before the first
iteration, and no other error ever escapes `fit`; when the dataset has at
least `k` series, Forgy succeeds and its centers are `k` dataset series
drawn without replacement at pairwise-distinct dataset indices. -/
theorem claim_C8_forgy (dist : Series → Series → ℚ) (len k maxIter : ℕ)
    (data : Dataset) (rs : List ℕ) :
    (∀ e, fitKMeans dist len k maxIter data rs = .error e ↔
      (data.length < k ∧ e = .InsufficientData)) ∧
    (k ≤ data.length →
      forgy data k rs = .ok ((forgyIdxs data k rs).map (fun i => data.getD i [])) ∧
      (forgyIdxs data k rs).length = k ∧
      (forgyIdxs data k rs).Nodup ∧
      ∀ i ∈ forgyIdxs data k rs, i < data.length) := by
  constructor
  · intro e
    by_cases hlt : data.length < k
    · have hforgy : forgy data k rs = .error .InsufficientData := by
        rw [forgy, if_pos hlt]
      rw [fitKMeans, hforgy]
      constructor
      · intro h
        refine ⟨hlt, ?_⟩
        cases e with
        | InsufficientData => rfl
        | InvalidParameter => simp [Except.map] at h
        | DimensionMismatch => simp [Except.map] at h
      · intro h
        rw [h.2]
        rfl
    · have hforgy : forgy data k rs =
          .ok ((forgyIdxs data k rs).map (fun i => data.getD i [])) := by
        rw [forgy, if_neg hlt]
      rw [fitKMeans, hforgy]
      constructor
      · intro h
        simp [Except.map] at h
      · intro h
        exact absurd h.1 hlt
  · intro hk
    have hpool : k ≤ (List.range data.length).length := by simp; omega
    refine ⟨?_, ?_, ?_, ?_⟩
    · rw [forgy, if_neg (by omega)]
    · exact drawIdxs_length k rs _ hpool
    · exact drawIdxs_nodup k rs _ (List.nodup_range _) hpool
    · intro i hi
      have := drawIdxs_subset k rs _ hpool i hi
      simpa using this

/-- Witness for C8: `k = 3` on a two-series dataset fails with
`InsufficientData`; `k = 1` on the same dataset succeeds with one distinct
index. -/
theorem claim_C8_forgy_witness :
    (fitKMeans sqDist 1 3 1 [[0], [1]] [0] = .error .InsufficientData ↔
      (([[0], [1]] : Dataset).length < 3 ∧
        (ClusterError.InsufficientData = ClusterError.InsufficientData))) ∧
    ((1 : ℕ) ≤ ([[0], [1]] : Dataset).length) ∧
    (forgy [[0], [1]] 1 [0] =
        .ok ((forgyIdxs [[0], [1]] 1 [0]).map (fun i => ([[0], [1]] : Dataset).getD i [])) ∧
      (forgyIdxs [[0], [1]] 1 [0]).length = 1 ∧
      (forgyIdxs [[0], [1]] 1 [0]).Nodup ∧
      ∀ i ∈ forgyIdxs [[0], [1]] 1 [0], i < ([[0], [1]] : Dataset).length) :=
  ⟨(claim_C8_forgy sqDist 1 3 1 [[0], [1]] [0]).1 .InsufficientData, by decide,
    (claim_C8_forgy sqDist 1 1 1 [[0], [1]] [0]).2 (by decide)⟩

/-- C10: fitting leaves the constructor-supplied configuration unchanged —
after `fit` the estimator's `n_clusters` (and the rest of the
configuration) reads back exactly as constructed — and the fitted model
exposes exactly `n_clusters` centers. -/
theorem claim_C10_config (dist : Series → Series → ℚ) (est : TimeSeriesKMeans)
    (data : Dataset) (rs : List ℕ) (hk : est.n_clusters ≤ data.length) :
    ∃ est', fitEstimator dist est data rs = .ok est' ∧
      est'.n_clusters = est.n_clusters ∧
      est'.max_iter = est.max_iter ∧
      est'.series_len = est.series_len ∧
      ∃ m, est'.model = some m ∧ m.centers.length = est.n_clusters := by
  have hforgy : forgy data est.n_clusters rs =
      .ok ((forgyIdxs data est.n_clusters rs).map (fun i => data.getD i [])) := by
    rw [forgy, if_neg (by omega)]
  have hlen0 : ((forgyIdxs data est.n_clusters rs).map
      (fun i => data.getD i [])).length = est.n_clusters := by
    simp only [List.length_map, forgyIdxs]
    exact drawIdxs_length est.n_clusters rs _ (by simp; omega)
  refine ⟨⟨est.n_clusters, est.max_iter, est.series_len,
      some (lloydLoop dist (updateMeans dist est.series_len est.n_clusters) data
        est.max_iter 0 ((forgyIdxs data est.n_clusters rs).map (fun i => data.getD i []))
        (assignAll dist
          ((forgyIdxs data est.n_clusters rs).map (fun i => data.getD i [])) data))⟩,
    ?_, rfl, rfl, rfl, ?_⟩
  · rw [fitEstimator, fitKMeans, hforgy]
    rfl
  · refine ⟨_, rfl, ?_⟩
    exact lloydLoop_centers_length dist _ data est.n_clusters
      (fun cs ls => updateMeans_length dist est.series_len est.n_clusters data cs ls)
      est.max_iter 0 _ _ hlen0

/-- Witness for C10 at a concrete input. -/
theorem claim_C10_config_witness :
    (⟨1, 1, 1, none⟩ : TimeSeriesKMeans).n_clusters ≤ ([[0], [1]] : Dataset).length ∧
    ∃ est', fitEstimator sqDist ⟨1, 1, 1, none⟩ [[0], [1]] [0] = .ok est' ∧
      est'.n_clusters = (⟨1, 1, 1, none⟩ : TimeSeriesKMeans).n_clusters ∧
      est'.max_iter = (⟨1, 1, 1, none⟩ : TimeSeriesKMeans).max_iter ∧
      est'.series_len = (⟨1, 1, 1, none⟩ : TimeSeriesKMeans).series_len ∧
      ∃ m, est'.model = some m ∧
        m.centers.length = (⟨1, 1, 1, none⟩ : TimeSeriesKMeans).n_clusters :=
  ⟨by decide, claim_C10_config sqDist ⟨1, 1, 1, none⟩ [[0], [1]] [0] (by decide)⟩

lemma getD_range (n i : ℕ) (h : i < n) : (List.range n).getD i 0 = i := by
  rw [List.getD_eq_getElem _ _ (by simpa using h)]
  simp

/-- C4: the centroid update never fails and never leaves an undefined
center — it always produces exactly `k` centers — and a cluster with zero
assigned members deterministically receives the dataset series farthest
from its own assigned center, where "farthest" means: no series is strictly
farther, and every strictly lower series index is strictly less far (ties
broken by lowest index). -/
theorem claim_C4_empty_cluster (dist : Series → Series → ℚ) (len k : ℕ) (data : Dataset)
    (centers : List Series) (labels : List ℕ) (j : ℕ) (hj : j < k) (hn : data ≠ [])
    (hempty : memberIdxs labels data.length j = []) :
    (updateMeans dist len k data centers labels).length = k ∧
    (updateMeans dist len k data centers labels).getD j [] =
      data.getD (farthestIdx dist data centers labels) [] ∧
    farthestIdx dist data centers labels < data.length ∧
    (∀ i, i < data.length →
      dist (data.getD i []) (centers.getD (labels.getD i 0) []) ≤
        dist (data.getD (farthestIdx dist data centers labels) [])
          (centers.getD (labels.getD (farthestIdx dist data centers labels) 0) [])) ∧
    (∀ i, i < farthestIdx dist data centers labels →
      dist (data.getD i []) (centers.getD (labels.getD i 0) []) <
        dist (data.getD (farthestIdx dist data centers labels) [])
          (centers.getD (labels.getD (farthestIdx dist data centers labels) 0) [])) := by
  have hds : ∀ i, i < data.length →
      ((List.range data.length).map
        (fun i => dist (data.getD i []) (centers.getD (labels.getD i 0) []))).getD i 0 =
      dist (data.getD i []) (centers.getD (labels.getD i 0) []) := by
    intro i hi
    rw [getD_map_of_lt _ _ _ 0 0 (by simpa using hi), getD_range _ _ hi]
  have hdslen : ((List.range data.length).map
      (fun i => dist (data.getD i []) (centers.getD (labels.getD i 0) []))).length =
      data.length := by simp
  have hdsne : ((List.range data.length).map
      (fun i => dist (data.getD i []) (centers.getD (labels.getD i 0) []))) ≠ [] := by
    intro h
    have := congrArg List.length h
    rw [hdslen] at this
    simp at this
    exact hn this
  have hflt : farthestIdx dist data centers labels < data.length := by
    have := maxIdx_lt_length _ hdsne
    rw [hdslen] at this
    exact this
  refine ⟨updateMeans_length dist len k data centers labels, ?_, hflt, ?_, ?_⟩
  · rw [updateMeans, getD_map_of_lt _ _ _ 0 [] (by simpa using hj), getD_range _ _ hj]
    simp only [hempty]
    rfl
  · intro i hi
    simp only [farthestIdx] at hflt ⊢
    have h := le_maxIdx _ i (by rw [hdslen]; exact hi)
    rw [hds i hi, hds _ hflt] at h
    exact h
  · intro i hi
    simp only [farthestIdx] at hflt hi ⊢
    have h := maxIdx_tiebreak _ i hi
    rw [hds i (lt_trans hi hflt), hds _ hflt] at h
    exact h

/-- Witness for C4: a two-series dataset labelled entirely into cluster 0,
so cluster 1 is empty. -/
theorem claim_C4_empty_cluster_witness :
    (1 : ℕ) < 2 ∧ ([[0], [1]] : Dataset) ≠ [] ∧
    memberIdxs [0, 0] ([[0], [1]] : Dataset).length 1 = [] ∧
    ((updateMeans sqDist 1 2 [[0], [1]] [[0], [5]] [0, 0]).length = 2 ∧
    (updateMeans sqDist 1 2 [[0], [1]] [[0], [5]] [0, 0]).getD 1 [] =
      ([[0], [1]] : Dataset).getD (farthestIdx sqDist [[0], [1]] [[0], [5]] [0, 0]) [] ∧
    farthestIdx sqDist [[0], [1]] [[0], [5]] [0, 0] < ([[0], [1]] : Dataset).length ∧
    (∀ i, i < ([[0], [1]] : Dataset).length →
      sqDist (([[0], [1]] : Dataset).getD i [])
          (([[0], [5]] : List Series).getD (([0, 0] : List ℕ).getD i 0) []) ≤
        sqDist (([[0], [1]] : Dataset).getD
            (farthestIdx sqDist [[0], [1]] [[0], [5]] [0, 0]) [])
          (([[0], [5]] : List Series).getD
            (([0, 0] : List ℕ).getD (farthestIdx sqDist [[0], [1]] [[0], [5]] [0, 0]) 0) [])) ∧
    (∀ i, i < farthestIdx sqDist [[0], [1]] [[0], [5]] [0, 0] →
      sqDist (([[0], [1]] : Dataset).getD i [])
          (([[0], [5]] : List Series).getD (([0, 0] : List ℕ).getD i 0) []) <
        sqDist (([[0], [1]] : Dataset).getD
            (farthestIdx sqDist [[0], [1]] [[0], [5]] [0, 0]) [])
          (([[0], [5]] : List Series).getD
            (([0, 0] : List ℕ).getD (farthestIdx sqDist [[0], [1]] [[0], [5]] [0, 0]) 0) []))) :=
  ⟨by decide, by decide, by decide,
    claim_C4_empty_cluster sqDist 1 2 [[0], [1]] [[0], [5]] [0, 0] 1
      (by decide) (by decide) (by decide)⟩

/-- C5: for every non-empty cluster, the medoid update selects an existing
member of the cluster (never a synthesized series) whose summed distance to
the cluster members is minimal, with ties broken by lowest index. -/
theorem claim_C5_medoid (dist : Series → Series → ℚ) (cl : List Series) (hne : cl ≠ []) :
    medoid dist cl ∈ cl ∧
    medoidIdx dist cl < cl.length ∧
    (∀ i, i < cl.length →
      (cl.map (fun m => dist (cl.getD (medoidIdx dist cl) []) m)).sum ≤
        (cl.map (fun m => dist (cl.getD i []) m)).sum) ∧
    (∀ i, i < medoidIdx dist cl →
      (cl.map (fun m => dist (cl.getD (medoidIdx dist cl) []) m)).sum <
        (cl.map (fun m => dist (cl.getD i []) m)).sum) := by
  have hds : ∀ i, i < cl.length →
      (cl.map (fun s => (cl.map (fun m => dist s m)).sum)).getD i 0 =
        (cl.map (fun m => dist (cl.getD i []) m)).sum := by
    intro i hi
    rw [getD_map_of_lt _ _ _ [] 0 hi]
  have hdsne : cl.map (fun s => (cl.map (fun m => dist s m)).sum) ≠ [] := by
    simpa using hne
  have hmlt : medoidIdx dist cl < cl.length := by
    have := minIdx_lt_length _ hdsne
    simpa [medoidIdx] using this
  refine ⟨getD_mem cl _ [] hmlt, hmlt, ?_, ?_⟩
  · intro i hi
    have h := minIdx_le (cl.map (fun s => (cl.map (fun m => dist s m)).sum)) i
      (by simpa using hi)
    rw [hds i hi] at h
    rw [← hds _ hmlt]
    exact h
  · intro i hi
    have hi' : i < cl.length := lt_trans (by simpa [medoidIdx] using hi) hmlt
    have h := minIdx_tiebreak (cl.map (fun s => (cl.map (fun m => dist s m)).sum)) i
      (by simpa [medoidIdx] using hi)
    rw [hds i hi'] at h
    rw [← hds _ hmlt]
    exact h

/-- Witness for C5 on a concrete three-member cluster. -/
theorem claim_C5_medoid_witness :
    ([[0], [1], [5]] : List Series) ≠ [] ∧
    (medoid sqDist [[0], [1], [5]] ∈ ([[0], [1], [5]] : List Series) ∧
    medoidIdx sqDist [[0], [1], [5]] < ([[0], [1], [5]] : List Series).length ∧
    (∀ i, i < ([[0], [1], [5]] : List Series).length →
      (([[0], [1], [5]] : List Series).map (fun m =>
        sqDist (([[0], [1], [5]] : List Series).getD (medoidIdx sqDist [[0], [1], [5]]) []) m)).sum ≤
        (([[0], [1], [5]] : List Series).map (fun m =>
          sqDist (([[0], [1], [5]] : List Series).getD i []) m)).sum) ∧
    (∀ i, i < medoidIdx sqDist [[0], [1], [5]] →
      (([[0], [1], [5]] : List Series).map (fun m =>
        sqDist (([[0], [1], [5]] : List Series).getD (medoidIdx sqDist [[0], [1], [5]]) []) m)).sum <
        (([[0], [1], [5]] : List Series).map (fun m =>
          sqDist (([[0], [1], [5]] : List Series).getD i []) m)).sum)) :=
  ⟨by decide, claim_C5_medoid sqDist [[0], [1], [5]] (by decide)⟩

/-! ### Inverse-CDF sampling lemmas (k-means++) -/

lemma pickIdx_lt_length : ∀ (ws : List ℚ) (u : ℚ), (∀ w ∈ ws, 0 ≤ w) → 0 ≤ u →
    u < ws.sum → pickIdx ws u < ws.length
  | [], u, _, hu, hlt => by
    simp only [List.sum_nil] at hlt
    linarith
  | w :: rest, u, hnn, hu, hlt => by
    by_cases hw : u < w
    · simp [pickIdx, hw]
    · have h1 : 0 ≤ u - w := by
        have := not_lt.mp hw
        linarith
      have h2 : u - w < rest.sum := by
        simp only [List.sum_cons] at hlt
        linarith
      have ih := pickIdx_lt_length rest (u - w)
        (fun x hx => hnn x (by simp [hx])) h1 h2
      simp only [pickIdx, if_neg hw, List.length_cons]
      omega

lemma pickIdx_interval : ∀ (ws : List ℚ) (u : ℚ), (∀ w ∈ ws, 0 ≤ w) → 0 ≤ u →
    u < ws.sum →
    ((ws.take (pickIdx ws u)).sum ≤ u ∧ u < (ws.take (pickIdx ws u + 1)).sum)
  | [], u, _, hu, hlt => by
    simp only [List.sum_nil] at hlt
    linarith
  | w :: rest, u, hnn, hu, hlt => by
    by_cases hw : u < w
    · simp only [pickIdx, if_pos hw, List.take_zero, List.sum_nil, zero_add,
        List.take_succ_cons, List.take_zero, List.sum_cons]
      exact ⟨hu, by simpa using hw⟩
    · have hwle : w ≤ u := not_lt.mp hw
      have h1 : 0 ≤ u - w := by linarith
      have h2 : u - w < rest.sum := by
        simp only [List.sum_cons] at hlt
        linarith
      have ih := pickIdx_interval rest (u - w)
        (fun x hx => hnn x (by simp [hx])) h1 h2
      simp only [pickIdx, if_neg hw, List.take_succ_cons, List.sum_cons]
      constructor
      · linarith [ih.1]
      · linarith [ih.2]

lemma take_replicate_sum (n i : ℕ) (h : i ≤ n) :
    ((List.replicate n (1 : ℚ)).take i).sum = i := by
  rw [List.take_replicate, min_eq_left h]
  simp [List.sum_replicate]

lemma minVal_nonneg (ds : List ℚ) (h : ∀ x ∈ ds, 0 ≤ x) : 0 ≤ minVal ds := by
  cases ds with
  | nil => simp [minVal]
  | cons d rest =>
    have hlt := minIdx_lt_length (d :: rest) (by simp)
    exact h _ (getD_mem _ _ 0 hlt)

lemma nearestSq_nonneg (dist : Series → Series → ℚ) (chosen : List Series) (x : Series) :
    0 ≤ nearestSq dist chosen x := by
  apply minVal_nonneg
  intro v hv
  simp only [List.mem_map] at hv
  obtain ⟨c, _, rfl⟩ := hv
  exact sq_nonneg _

lemma kmeansPP_loop_length (dist : Series → Series → ℚ) (data : Dataset) :
    ∀ (us : List ℚ) (acc : List Series),
      (us.foldl
        (fun chosen u => chosen ++ [data.getD (kmeansPPNext dist data chosen u) []])
        acc).length = acc.length + us.length
  | [], acc => by simp
  | u :: us, acc => by
    simp only [List.foldl_cons]
    rw [kmeansPP_loop_length dist data us _]
    simp only [List.length_append, List.length_cons, List.length_nil]
    omega

/-- C6: k-means++ initialization.  (a) The first center is drawn uniformly:
the index picked from the unit-weight list satisfies `p ≤ u < p + 1`, so
every dataset index owns a `u`-interval of equal length 1.  (b) Every
subsequent center is drawn with probability proportional to the squared
distance to the nearest already-chosen center: the picked index `q`
satisfies `prefix-sum q ≤ u < prefix-sum (q + 1)` over those weights, so
index `q`'s `u`-interval has exactly the length of its weight.  (c) The
loop keeps drawing until `us.length + 1` centers are chosen. -/
theorem claim_C6_kmeanspp (dist : Series → Series → ℚ) (data : Dataset)
    (chosen : List Series) (u0 u : ℚ) (us : List ℚ)
    (h0 : 0 ≤ u0) (h0' : u0 < (data.length : ℚ))
    (hu : 0 ≤ u) (hu' : u < (data.map (nearestSq dist chosen)).sum) :
    (kmeansPPFirst data u0 < data.length ∧
      (kmeansPPFirst data u0 : ℚ) ≤ u0 ∧ u0 < (kmeansPPFirst data u0 : ℚ) + 1) ∧
    (kmeansPPNext dist data chosen u < data.length ∧
      ((data.map (nearestSq dist chosen)).take (kmeansPPNext dist data chosen u)).sum ≤ u ∧
      u < ((data.map (nearestSq dist chosen)).take
        (kmeansPPNext dist data chosen u + 1)).sum) ∧
    (kmeansPP dist data u0 us).length = us.length + 1 := by
  have hrepl : data.map (fun _ => (1 : ℚ)) = List.replicate data.length 1 :=
    List.map_const' data 1
  have hsum1 : (data.map (fun _ => (1 : ℚ))).sum = (data.length : ℚ) := by
    rw [hrepl]
    simp [List.sum_replicate]
  have hnn1 : ∀ w ∈ data.map (fun _ => (1 : ℚ)), (0 : ℚ) ≤ w := by
    intro w hw
    simp only [List.mem_map] at hw
    obtain ⟨_, _, rfl⟩ := hw
    norm_num
  have hlt1 : u0 < (data.map (fun _ => (1 : ℚ))).sum := by rw [hsum1]; exact h0'
  have hp := pickIdx_lt_length _ u0 hnn1 h0 hlt1
  have hpi := pickIdx_interval _ u0 hnn1 h0 hlt1
  have hplen : kmeansPPFirst data u0 < data.length := by
    simpa [kmeansPPFirst] using hp
  have hnn2 : ∀ w ∈ data.map (nearestSq dist chosen), (0 : ℚ) ≤ w := by
    intro w hw
    simp only [List.mem_map] at hw
    obtain ⟨x, _, rfl⟩ := hw
    exact nearestSq_nonneg dist chosen x
  have hq := pickIdx_lt_length _ u hnn2 hu hu'
  have hqi := pickIdx_interval _ u hnn2 hu hu'
  refine ⟨⟨hplen, ?_, ?_⟩, ⟨by simpa [kmeansPPNext] using hq,
    by simpa [kmeansPPNext] using hqi.1, by simpa [kmeansPPNext] using hqi.2⟩, ?_⟩
  · have h1 := hpi.1
    rw [hrepl, take_replicate_sum _ _ (le_of_lt (by simpa [hrepl] using hp))] at h1
    simpa [kmeansPPFirst, hrepl] using h1
  · have h2 := hpi.2
    rw [hrepl, take_replicate_sum _ _ (by simpa [hrepl] using hp)] at h2
    push_cast at h2 ⊢
    simpa [kmeansPPFirst, hrepl] using h2
  · rw [kmeansPP, kmeansPP_loop_length dist data us _]
    simp only [List.length_cons, List.length_nil]
    omega

/-- Witness for C6 at a concrete input: two series, one already-chosen
center, `u0 = u = 1/2`, one further draw. -/
theorem claim_C6_kmeanspp_witness :
    (0 : ℚ) ≤ 1 / 2 ∧ (1 / 2 : ℚ) < (([[0], [1]] : Dataset).length : ℚ) ∧
    (1 / 2 : ℚ) < (([[0], [1]] : Dataset).map (nearestSq sqDist [[0]])).sum ∧
    ((kmeansPPFirst [[0], [1]] (1 / 2) < ([[0], [1]] : Dataset).length ∧
      (kmeansPPFirst [[0], [1]] (1 / 2) : ℚ) ≤ 1 / 2 ∧
      (1 / 2 : ℚ) < (kmeansPPFirst [[0], [1]] (1 / 2) : ℚ) + 1) ∧
    (kmeansPPNext sqDist [[0], [1]] [[0]] (1 / 2) < ([[0], [1]] : Dataset).length ∧
      ((([[0], [1]] : Dataset).map (nearestSq sqDist [[0]])).take
        (kmeansPPNext sqDist [[0], [1]] [[0]] (1 / 2))).sum ≤ 1 / 2 ∧
      (1 / 2 : ℚ) < ((([[0], [1]] : Dataset).map (nearestSq sqDist [[0]])).take
        (kmeansPPNext sqDist [[0], [1]] [[0]] (1 / 2) + 1)).sum) ∧
    (kmeansPP sqDist [[0], [1]] (1 / 2) [1 / 2]).length = [(1 / 2 : ℚ)].length + 1) := by
  have h1 : (0 : ℚ) ≤ 1 / 2 := by norm_num
  have h2 : (1 / 2 : ℚ) < (([[0], [1]] : Dataset).length : ℚ) := by norm_num
  have h3 : (1 / 2 : ℚ) < (([[0], [1]] : Dataset).map (nearestSq sqDist [[0]])).sum := by
    norm_num [nearestSq, minVal, minIdx, sqDist]
  exact ⟨h1, h2, h3,
    claim_C6_kmeanspp sqDist [[0], [1]] [[0]] (1 / 2) (1 / 2) [1 / 2] h1 h2 h1 h3⟩

/-! ### Mean-update optimality and inertia monotonicity (Lloyd's law) -/

lemma sum_sq_shift (xs : List ℚ) (c : ℚ) :
    (xs.map (fun x => (x - c) ^ 2)).sum =
      (xs.map (fun x => x ^ 2)).sum - 2 * c * xs.sum + (xs.length : ℚ) * c ^ 2 := by
  induction xs with
  | nil => simp
  | cons x xs ih =>
    simp only [List.map_cons, List.sum_cons, List.length_cons, ih]
    push_cast
    ring

lemma sum_sq_dev_mean_le (xs : List ℚ) (c : ℚ) :
    (xs.map (fun x => (x - xs.sum / xs.length) ^ 2)).sum ≤
      (xs.map (fun x => (x - c) ^ 2)).sum := by
  rcases eq_or_ne xs.length 0 with h0 | h0
  · have hnil : xs = [] := List.length_eq_zero.mp h0
    subst hnil
    simp
  · have hn : (xs.length : ℚ) ≠ 0 := Nat.cast_ne_zero.mpr h0
    have hs : (xs.length : ℚ) * (xs.sum / xs.length) = xs.sum := by
      field_simp
    have h1 := sum_sq_shift xs c
    have h2 := sum_sq_shift xs (xs.sum / xs.length)
    have h3 : (xs.length : ℚ) * (xs.sum / xs.length) * (xs.sum / xs.length)
        = xs.sum * (xs.sum / xs.length) := by rw [hs]
    have h4 : c * ((xs.length : ℚ) * (xs.sum / xs.length)) = c * xs.sum := by rw [hs]
    have hnn : (0 : ℚ) ≤ (xs.length : ℚ) * (c - xs.sum / xs.length) ^ 2 :=
      mul_nonneg (by positivity) (sq_nonneg _)
    nlinarith [h1, h2, h3, h4, hnn]

lemma sqDist_eq_range (a : Series) : ∀ (b : Series) (len : ℕ),
    a.length = len → b.length = len →
    sqDist a b = ((List.range len).map (fun t => (a.getD t 0 - b.getD t 0) ^ 2)).sum := by
  induction a with
  | nil =>
    intro b len ha hb
    have h0 : len = 0 := by simpa using ha.symm
    subst h0
    have hb0 : b = [] := List.length_eq_zero.mp hb
    subst hb0
    simp [sqDist]
  | cons x xs ih =>
    intro b len ha hb
    cases b with
    | nil =>
      rw [← ha] at hb
      simp at hb
    | cons y ys =>
      obtain ⟨m, rfl⟩ : ∃ m, len = m + 1 := ⟨xs.length, by simpa using ha.symm⟩
      have hxs : xs.length = m := by simpa using ha
      have hys : ys.length = m := by simpa using hb
      rw [List.range_succ_eq_map]
      simp only [List.map_cons, List.map_map, List.sum_cons, List.getD_cons_zero]
      have hcomp : ((fun t => (((x :: xs).getD t 0 - (y :: ys).getD t 0) ^ 2)) ∘ Nat.succ)
          = fun t => ((xs.getD t 0 - ys.getD t 0) ^ 2) := by
        funext t
        simp [Function.comp, List.getD_cons_succ]
      rw [hcomp, ← ih ys m hxs hys]
      simp [sqDist, List.zipWith_cons_cons, List.sum_cons]

lemma sum_map_swap (l1 l2 : List ℕ) (g : ℕ → ℕ → ℚ) :
    (l1.map (fun i => (l2.map (g i)).sum)).sum =
      (l2.map (fun t => (l1.map (fun i => g i t)).sum)).sum := by
  induction l1 with
  | nil =>
    symm
    simp only [List.map_nil, List.sum_nil]
    apply List.sum_eq_zero
    intro x hx
    simp only [List.mem_map] at hx
    obtain ⟨t, _, rfl⟩ := hx
    rfl
  | cons i l1 ih =>
    simp only [List.map_cons, List.sum_cons, ih]
    rw [List.sum_map_add]

lemma cluster_mean_optimal (data : Dataset) (mem : List ℕ) (len : ℕ) (c : Series)
    (hmem : ∀ i ∈ mem, (data.getD i []).length = len) (hc : c.length = len) :
    (mem.map (fun i =>
      sqDist (data.getD i []) ((List.range len).map (meanAt data mem)))).sum ≤
      (mem.map (fun i => sqDist (data.getD i []) c)).sum := by
  have hclen : ((List.range len).map (meanAt data mem)).length = len := by simp
  have hL : ∀ i ∈ mem,
      sqDist (data.getD i []) ((List.range len).map (meanAt data mem)) =
        ((List.range len).map
          (fun t => ((data.getD i []).getD t 0 - meanAt data mem t) ^ 2)).sum := by
    intro i hi
    rw [sqDist_eq_range _ _ len (hmem i hi) hclen]
    congr 1
    apply List.map_congr_left
    intro t ht
    have ht' : t < len := List.mem_range.mp ht
    rw [getD_map_of_lt (meanAt data mem) (List.range len) t 0 0 (by simpa using ht'),
      getD_range _ _ ht']
  have hR : ∀ i ∈ mem, sqDist (data.getD i []) c =
      ((List.range len).map
        (fun t => ((data.getD i []).getD t 0 - c.getD t 0) ^ 2)).sum := by
    intro i hi
    exact sqDist_eq_range _ _ len (hmem i hi) hc
  calc (mem.map (fun i =>
        sqDist (data.getD i []) ((List.range len).map (meanAt data mem)))).sum
      = (mem.map (fun i => ((List.range len).map
          (fun t => ((data.getD i []).getD t 0 - meanAt data mem t) ^ 2)).sum)).sum := by
        rw [List.map_congr_left hL]
    _ = ((List.range len).map (fun t => (mem.map
          (fun i => ((data.getD i []).getD t 0 - meanAt data mem t) ^ 2)).sum)).sum :=
        sum_map_swap mem (List.range len) _
    _ ≤ ((List.range len).map (fun t => (mem.map
          (fun i => ((data.getD i []).getD t 0 - c.getD t 0) ^ 2)).sum)).sum := by
        apply List.sum_le_sum
        intro t ht
        have h := sum_sq_dev_mean_le
          (mem.map (fun i => (data.getD i []).getD t 0)) (c.getD t 0)
        simp only [List.map_map, List.length_map, Function.comp] at h
        simpa [meanAt] using h
    _ = (mem.map (fun i => ((List.range len).map
          (fun t => ((data.getD i []).getD t 0 - c.getD t 0) ^ 2)).sum)).sum :=
        (sum_map_swap mem (List.range len) _).symm
    _ = (mem.map (fun i => sqDist (data.getD i []) c)).sum := by
        rw [List.map_congr_left hR]

lemma inertia_assign_le (dist : Series → Series → ℚ) (data : Dataset) (cs : List Series)
    (lab : List ℕ) (hlab : ∀ i, i < data.length → lab.getD i 0 < cs.length) :
    inertia dist data cs (assignAll dist cs data) ≤ inertia dist data cs lab := by
  apply List.sum_le_sum
  intro i hi
  have hi' : i < data.length := List.mem_range.mp hi
  rw [assignAll_getD dist cs data i hi']
  exact assignLabel_min dist cs _ _ (hlab i hi')

lemma inertia_update_le (len k : ℕ) (data : Dataset) (centers : List Series)
    (lab : List ℕ) (hlen : ∀ s ∈ data, s.length = len)
    (hclen : ∀ s ∈ centers, s.length = len) (hc : centers.length = k)
    (hlab : ∀ i, i < data.length → lab.getD i 0 < k) :
    inertia sqDist data (updateMeans sqDist len k data centers lab) lab ≤
      inertia sqDist data centers lab := by
  have hmaps : ∀ i ∈ Finset.range data.length,
      lab.getD i 0 ∈ Finset.range k := by
    intro i hi
    simp only [Finset.mem_range] at hi ⊢
    exact hlab i hi
  have hbL : inertia sqDist data (updateMeans sqDist len k data centers lab) lab =
      ∑ i ∈ Finset.range data.length, sqDist (data.getD i [])
        ((updateMeans sqDist len k data centers lab).getD (lab.getD i 0) []) := rfl
  have hbR : inertia sqDist data centers lab =
      ∑ i ∈ Finset.range data.length, sqDist (data.getD i [])
        (centers.getD (lab.getD i 0) []) := rfl
  rw [hbL, hbR,
    ← Finset.sum_fiberwise_of_maps_to hmaps (fun i => sqDist (data.getD i [])
      ((updateMeans sqDist len k data centers lab).getD (lab.getD i 0) [])),
    ← Finset.sum_fiberwise_of_maps_to hmaps (fun i => sqDist (data.getD i [])
      (centers.getD (lab.getD i 0) []))]
  apply Finset.sum_le_sum
  intro j hj
  have hjk : j < k := Finset.mem_range.mp hj
  have e1 : ∑ i ∈ (Finset.range data.length).filter (fun i => lab.getD i 0 = j),
      sqDist (data.getD i [])
        ((updateMeans sqDist len k data centers lab).getD (lab.getD i 0) []) =
      ∑ i ∈ (Finset.range data.length).filter (fun i => lab.getD i 0 = j),
      sqDist (data.getD i [])
        ((updateMeans sqDist len k data centers lab).getD j []) :=
    Finset.sum_congr rfl (fun i hi => by rw [(Finset.mem_filter.mp hi).2])
  have e2 : ∑ i ∈ (Finset.range data.length).filter (fun i => lab.getD i 0 = j),
      sqDist (data.getD i []) (centers.getD (lab.getD i 0) []) =
      ∑ i ∈ (Finset.range data.length).filter (fun i => lab.getD i 0 = j),
      sqDist (data.getD i []) (centers.getD j []) :=
    Finset.sum_congr rfl (fun i hi => by rw [(Finset.mem_filter.mp hi).2])
  rw [e1, e2]
  by_cases hmemE : memberIdxs lab data.length j = []
  · have hfe : (Finset.range data.length).filter (fun i => lab.getD i 0 = j) = ∅ := by
      apply Finset.eq_empty_iff_forall_not_mem.mpr
      intro i hi
      have hi' := Finset.mem_filter.mp hi
      have hmm : i ∈ memberIdxs lab data.length j := by
        simp only [memberIdxs, List.mem_filter, List.mem_range, decide_eq_true_eq]
        exact ⟨Finset.mem_range.mp hi'.1, hi'.2⟩
      rw [hmemE] at hmm
      simp at hmm
    rw [hfe]
    simp
  · have hCj : (updateMeans sqDist len k data centers lab).getD j [] =
        (List.range len).map (meanAt data (memberIdxs lab data.length j)) := by
      rw [updateMeans, getD_map_of_lt _ _ _ 0 [] (by simpa using hjk), getD_range _ _ hjk]
      simp only [if_neg hmemE]
    have hfibL : ∑ i ∈ (Finset.range data.length).filter (fun i => lab.getD i 0 = j),
        sqDist (data.getD i [])
          ((List.range len).map (meanAt data (memberIdxs lab data.length j))) =
        ((memberIdxs lab data.length j).map (fun i => sqDist (data.getD i [])
          ((List.range len).map (meanAt data (memberIdxs lab data.length j))))).sum := rfl
    have hfibR : ∑ i ∈ (Finset.range data.length).filter (fun i => lab.getD i 0 = j),
        sqDist (data.getD i []) (centers.getD j []) =
        ((memberIdxs lab data.length j).map
          (fun i => sqDist (data.getD i []) (centers.getD j []))).sum := rfl
    rw [hCj, hfibL, hfibR]
    apply cluster_mean_optimal
    · intro i hi
      simp only [memberIdxs, List.mem_filter, List.mem_range] at hi
      exact hlen _ (getD_mem data i [] hi.1)
    · have : centers.getD j [] ∈ centers := getD_mem centers j [] (by omega)
      exact hclen _ this

/-- C3 counterexample: the monotonicity law does not hold for every run of
the Lloyd's loop under every configured metric — it fails for the
spec-supported configuration metric = `dtw`, averaging = `mean`.  On the
dataset `[[0,2,0,2,0], [2,0,2,0,2]]` with one cluster whose current center
is the first series (a Forgy-initialized state), the inertia after the
round's assignment is `0 + 8 = 8`; after the next Updating-then-Assigning
round pair the center is the elementwise mean `[1,1,1,1,1]` and the inertia
is `5 + 5 = 10 > 8`: the claimed inequality is false at this input. -/
theorem claim_C3_counterexample :
    ¬ (inertia dtwQ [[0, 2, 0, 2, 0], [2, 0, 2, 0, 2]]
        (updateMeans dtwQ 5 1 [[0, 2, 0, 2, 0], [2, 0, 2, 0, 2]] [[0, 2, 0, 2, 0]]
          (assignAll dtwQ [[0, 2, 0, 2, 0]] [[0, 2, 0, 2, 0], [2, 0, 2, 0, 2]]))
        (assignAll dtwQ
          (updateMeans dtwQ 5 1 [[0, 2, 0, 2, 0], [2, 0, 2, 0, 2]] [[0, 2, 0, 2, 0]]
            (assignAll dtwQ [[0, 2, 0, 2, 0]] [[0, 2, 0, 2, 0], [2, 0, 2, 0, 2]]))
          [[0, 2, 0, 2, 0], [2, 0, 2, 0, 2]]) ≤
      inertia dtwQ [[0, 2, 0, 2, 0], [2, 0, 2, 0, 2]] [[0, 2, 0, 2, 0]]
        (assignAll dtwQ [[0, 2, 0, 2, 0]] [[0, 2, 0, 2, 0], [2, 0, 2, 0, 2]])) := by
  intro hle
  have hlab : assignAll dtwQ [[0, 2, 0, 2, 0]] [[0, 2, 0, 2, 0], [2, 0, 2, 0, 2]]
      = [0, 0] := by
    simp [assignAll, assignLabel, minIdx]
  have hupd : updateMeans dtwQ 5 1 [[0, 2, 0, 2, 0], [2, 0, 2, 0, 2]] [[0, 2, 0, 2, 0]]
      [0, 0] = [[1, 1, 1, 1, 1]] := by
    norm_num [updateMeans, memberIdxs, meanAt, List.range_succ, List.filter,
      List.cons_ne_nil]
  have hlab2 : assignAll dtwQ [[1, 1, 1, 1, 1]] [[0, 2, 0, 2, 0], [2, 0, 2, 0, 2]]
      = [0, 0] := by
    simp [assignAll, assignLabel, minIdx]
  have e0 : dtwQ [0, 2, 0, 2, 0] [0, 2, 0, 2, 0] = 0 := by
    rw [dtwQ_eq_dtwF]
    simp only [List.reverse_cons, List.reverse_nil, List.cons_append, List.nil_append]
    simp only [dtwF, localSq, WithTop.top_add, WithTop.add_top, min_top_left,
      min_top_right, ← WithTop.coe_zero, ← WithTop.coe_add, ← WithTop.coe_min,
      WithTop.untop'_coe]
    norm_num [min_def]
  have e1 : dtwQ [2, 0, 2, 0, 2] [0, 2, 0, 2, 0] = 8 := by
    rw [dtwQ_eq_dtwF]
    simp only [List.reverse_cons, List.reverse_nil, List.cons_append, List.nil_append]
    simp only [dtwF, localSq, WithTop.top_add, WithTop.add_top, min_top_left,
      min_top_right, ← WithTop.coe_zero, ← WithTop.coe_add, ← WithTop.coe_min,
      WithTop.untop'_coe]
    norm_num [min_def]
  have e2 : dtwQ [0, 2, 0, 2, 0] [1, 1, 1, 1, 1] = 5 := by
    rw [dtwQ_eq_dtwF]
    simp only [List.reverse_cons, List.reverse_nil, List.cons_append, List.nil_append]
    simp only [dtwF, localSq, WithTop.top_add, WithTop.add_top, min_top_left,
      min_top_right, ← WithTop.coe_zero, ← WithTop.coe_add, ← WithTop.coe_min,
      WithTop.untop'_coe]
    norm_num [min_def]
  have e3 : dtwQ [2, 0, 2, 0, 2] [1, 1, 1, 1, 1] = 5 := by
    rw [dtwQ_eq_dtwF]
    simp only [List.reverse_cons, List.reverse_nil, List.cons_append, List.nil_append]
    simp only [dtwF, localSq, WithTop.top_add, WithTop.add_top, min_top_left,
      min_top_right, ← WithTop.coe_zero, ← WithTop.coe_add, ← WithTop.coe_min,
      WithTop.untop'_coe]
    norm_num [min_def]
  rw [hlab, hupd, hlab2] at hle
  have hnew : inertia dtwQ [[0, 2, 0, 2, 0], [2, 0, 2, 0, 2]] [[1, 1, 1, 1, 1]]
      [0, 0] = 10 := by
    norm_num [inertia, List.range_succ, e2, e3]
  have hold : inertia dtwQ [[0, 2, 0, 2, 0], [2, 0, 2, 0, 2]] [[0, 2, 0, 2, 0]]
      [0, 0] = 8 := by
    norm_num [inertia, List.range_succ, e0, e1]
  rw [hnew, hold] at hle
  norm_num at hle

/-- C3 (amended): inertia — the sum of squared distances, the Euclidean
metric's natural scale — is non-increasing across consecutive
Updating-then-Assigning round pairs of the Lloyd's loop configured with the
Euclidean metric and mean averaging: after recomputing the centers from the
current assignment and reassigning every series, the inertia is at most the
inertia measured after the previous round's assignment.  (By the
counterexample above, the law does not extend to every configured metric:
with the `dtw` metric the mean update can increase inertia.) -/
theorem claim_C3_inertia_monotone (len k : ℕ) (data : Dataset) (centers : List Series)
    (hk : 0 < k) (hlen : ∀ s ∈ data, s.length = len)
    (hclen : ∀ s ∈ centers, s.length = len) (hc : centers.length = k) :
    inertia sqDist data
      (updateMeans sqDist len k data centers (assignAll sqDist centers data))
      (assignAll sqDist
        (updateMeans sqDist len k data centers (assignAll sqDist centers data)) data) ≤
      inertia sqDist data centers (assignAll sqDist centers data) := by
  have hcne : centers ≠ [] := by
    intro h
    rw [h] at hc
    simp at hc
    omega
  have hlab : ∀ i, i < data.length →
      (assignAll sqDist centers data).getD i 0 < k := by
    intro i hi
    rw [assignAll_getD _ _ _ _ hi]
    have h := assignLabel_lt sqDist centers (data.getD i []) hcne
    rw [hc] at h
    exact h
  have hulen : (updateMeans sqDist len k data centers
      (assignAll sqDist centers data)).length = k :=
    updateMeans_length sqDist len k data centers _
  have step1 := inertia_assign_le sqDist data
    (updateMeans sqDist len k data centers (assignAll sqDist centers data))
    (assignAll sqDist centers data)
    (fun i hi => by rw [hulen]; exact hlab i hi)
  have step2 := inertia_update_le len k data centers
    (assignAll sqDist centers data) hlen hclen hc hlab
  exact le_trans step1 step2

/-- Witness for C3 at a concrete input: two unit-length series, one
cluster. -/
theorem claim_C3_inertia_monotone_witness :
    (0 : ℕ) < 1 ∧ (∀ s ∈ ([[0], [1]] : Dataset), s.length = 1) ∧
    (∀ s ∈ ([[0]] : List Series), s.length = 1) ∧
    ([[0]] : List Series).length = 1 ∧
    inertia sqDist [[0], [1]]
      (updateMeans sqDist 1 1 [[0], [1]] [[0]] (assignAll sqDist [[0]] [[0], [1]]))
      (assignAll sqDist
        (updateMeans sqDist 1 1 [[0], [1]] [[0]]
          (assignAll sqDist [[0]] [[0], [1]])) [[0], [1]]) ≤
      inertia sqDist [[0], [1]] [[0]] (assignAll sqDist [[0]] [[0], [1]]) :=
  ⟨by decide, by decide, by decide, by decide,
    claim_C3_inertia_monotone 1 1 [[0], [1]] [[0]]
      (by decide) (by decide) (by decide) (by decide)⟩

/-! ### DBA self-alignment lemmas -/

lemma dtwCell_nonneg (a b : List ℚ) : ∀ (i j : ℕ), 0 ≤ dtwCell localSq a b i j
  | 0, 0 => by simp [dtwCell]
  | i + 1, 0 => by simp [dtwCell]
  | 0, j + 1 => by simp [dtwCell]
  | i + 1, j + 1 => by
    have h1 := dtwCell_nonneg a b i (j + 1)
    have h2 := dtwCell_nonneg a b (i + 1) j
    have h3 := dtwCell_nonneg a b i j
    have hq : (0 : ℚ) ≤ localSq (a.getD i 0) (b.getD j 0) := sq_nonneg _
    have hc : (0 : WithTop ℚ) ≤ (localSq (a.getD i 0) (b.getD j 0) : WithTop ℚ) := by
      exact_mod_cast hq
    simp only [dtwCell]
    exact add_nonneg hc (le_min h1 (le_min h2 h3))
  termination_by i j => i + j

lemma dtwCell_diag_zero (a : List ℚ) : ∀ (i : ℕ), i ≤ a.length →
    dtwCell localSq a a i i = 0 := by
  intro i
  induction i with
  | zero =>
    intro _
    simp [dtwCell]
  | succ i ih =>
    intro hi
    have h1 := dtwCell_nonneg a a i (i + 1)
    have h2 := dtwCell_nonneg a a (i + 1) i
    have h3 := ih (by omega)
    simp only [dtwCell, h3]
    rw [min_eq_right h2, min_eq_right h1]
    have hq : localSq (a.getD i 0) (a.getD i 0) = 0 := by
      simp [localSq]
    rw [hq]
    simp

lemma btStep_diag (a : List ℚ) (i : ℕ) (hi : i + 1 ≤ a.length) :
    btStep a a (i + 1, i + 1) = (i, i) := by
  have h0 : dtwCell localSq a a i i = 0 := dtwCell_diag_zero a i (by omega)
  have h1 := dtwCell_nonneg a a i (i + 1)
  have h2 := dtwCell_nonneg a a (i + 1) i
  simp only [btStep]
  rw [if_pos ⟨by rw [h0]; exact h1, by rw [h0]; exact h2⟩]

lemma btPathAux_diag (a : List ℚ) : ∀ (i fuel : ℕ), i ≤ a.length → i ≤ fuel →
    btPathAux a a fuel (i, i) = diag i := by
  intro i
  induction i with
  | zero =>
    intro fuel _ _
    cases fuel with
    | zero => simp [btPathAux, diag]
    | succ f => simp [btPathAux, diag]
  | succ i ih =>
    intro fuel hia hif
    obtain ⟨f, rfl⟩ : ∃ f, fuel = f + 1 := ⟨fuel - 1, by omega⟩
    simp only [btPathAux, diag]
    rw [btStep_diag a i hia]
    rw [ih f (by omega) (by omega)]

lemma alignPath_self (a : List ℚ) : alignPath a a = diag a.length := by
  rw [alignPath]
  exact btPathAux_diag a a.length (a.length + a.length) le_rfl (by omega)

lemma diag_filter (n t : ℕ) :
    (diag n).filter (fun p => p.1 = t + 1) =
      if t + 1 ≤ n then [(t + 1, t + 1)] else [] := by
  induction n with
  | zero => simp [diag]
  | succ n ih =>
    by_cases h : t + 1 = n + 1
    · have ht : t = n := by omega
      subst ht
      simp only [diag, List.filter_cons]
      rw [ih]
      simp
    · simp only [diag, List.filter_cons]
      have hd : ¬((n + 1, n + 1) : ℕ × ℕ).1 = t + 1 := by
        simp
        omega
      simp only [decide_eq_true_eq, if_neg hd]
      rw [ih]
      split_ifs with h1 h2 h3
      · rfl
      · omega
      · omega
      · rfl

lemma range_map_getD (a : Series) :
    (List.range a.length).map (fun t => a.getD t 0) = a := by
  apply List.ext_getElem
  · simp
  · intro i h1 h2
    simp only [List.getElem_map, List.getElem_range]
    rw [List.getD_eq_getElem _ _ h2]

/-- C9: DBA with exactly one refinement round on a cluster whose only
member is the series itself, starting from that series as the reference,
returns the series unchanged — the self-alignment path is the diagonal, so
each reference coordinate averages the singleton multiset of its own value.
(Over `ℚ` the identity is exact, hence in particular within any
floating-point tolerance.) -/
theorem claim_C9_dba_identity (a : Series) : dba 1 [a] a = a := by
  have hone : dba 1 [a] a = refineOnce [a] a := rfl
  rw [hone, refineOnce]
  have hval : ∀ t, t < a.length →
      ([a].flatMap (fun m =>
        ((alignPath a m).filter (fun p => p.1 = t + 1)).map
          (fun p => m.getD (p.2 - 1) 0))) = [a.getD t 0] := by
    intro t ht
    simp only [List.flatMap_cons, List.flatMap_nil, List.append_nil]
    rw [alignPath_self, diag_filter]
    rw [if_pos (by omega)]
    simp
  have hmap : (List.range a.length).map (fun t =>
      ([a].flatMap (fun m =>
        ((alignPath a m).filter (fun p => p.1 = t + 1)).map
          (fun p => m.getD (p.2 - 1) 0))).sum /
      (([a].flatMap (fun m =>
        ((alignPath a m).filter (fun p => p.1 = t + 1)).map
          (fun p => m.getD (p.2 - 1) 0))).length : ℚ)) =
      (List.range a.length).map (fun t => a.getD t 0) := by
    apply List.map_congr_left
    intro t ht
    rw [hval t (List.mem_range.mp ht)]
    simp
  rw [hmap, range_map_getD]

end Clustering
